import Mathlib

/-!
Verification of the aichatconf model-reconciliation tool.

The definitions below are a shallow embedding of the Go sources:
the generic YAML node tree (gopkg.in/yaml.v3 `yaml.Node`, restricted to the
fields the tool reads: `Kind`, `Value`, `Content`), the tree accessors
`getNodeValue` / `setNodeValue`, and the reconciliation pipeline of `process`
(exclusion filter, obsolete-model prune, new-model addition with enrichment,
sort by name, default-model fixup).  Functions that in Go may panic on
out-of-range indexing or nil dereference are additionally modelled in an
`Except String` monad where `Except.error` represents the runtime panic.
-/

namespace AichatConf

/-- yaml.Kind: the node kinds of gopkg.in/yaml.v3 (DocumentNode, SequenceNode,
MappingNode, ScalarNode, AliasNode). -/
inductive Kind where
  | document
  | sequence
  | mapping
  | scalar
  | aliasNode
deriving DecidableEq

/-- yaml.Node restricted to the fields read by the tool: `Kind`, `Value` and the
ordered `Content` child list (mappings store alternating key/value children). -/
inductive Node where
  | mk (kind : Kind) (value : String) (content : List Node)

/-- Projection of the node kind. -/
def Node.kind : Node → Kind
  | .mk k _ _ => k

/-- Projection of the scalar value. -/
def Node.value : Node → String
  | .mk _ v _ => v

/-- Projection of the ordered child list. -/
def Node.content : Node → List Node
  | .mk _ _ c => c

/-- A scalar leaf node, as built by the Go literals
`&yaml.Node\x7bKind: yaml.ScalarNode, Value: v\x7d`. -/
def yamlScalar (v : String) : Node := Node.mk Kind.scalar v []

/-- The scan loop of `getNodeValue`: walk the children in order; at a scalar child
equal to `key`, when a next child exists and has the expected kind, return it;
otherwise keep scanning from the next child. -/
def findKeyedValue : List Node → String → Kind → Option Node
  | [], _, _ => none
  | [_], _, _ => none
  | c :: v :: rest, key, k =>
    if c.kind = Kind.scalar ∧ c.value = key then
      if v.kind = k then some v else findKeyedValue (v :: rest) key k
    else findKeyedValue (v :: rest) key k

/-- `getNodeValue(node, key, valueKind)`: returns the paired value and `true` on a
hit, else a fresh empty node of the requested kind and `false`. -/
def getNodeValue (node : Node) (key : String) (valueKind : Kind) : Node × Bool :=
  match findKeyedValue node.content key valueKind with
  | some v => (v, true)
  | none => (Node.mk valueKind "" [], false)

/-- Go slice indexing `l[i]` with its runtime semantics: an out-of-range access is
a panic, modelled as `Except.error`. -/
def childAt (l : List Node) (i : Nat) : Except String Node :=
  match l[i]? with
  | some n => Except.ok n
  | none => Except.error "runtime error: index out of range"

/-- The scan loop of `getNodeValue` with Go indexing semantics made explicit: the
source guards `node.Content[i+1]` behind `i+1 < len(node.Content)`, here the
length test guards `childAt rest 0` (the element at offset `i+1`). -/
def findKeyedValueE : List Node → String → Kind → Except String (Option Node)
  | [], _, _ => Except.ok none
  | c :: rest, key, k =>
    if c.kind = Kind.scalar ∧ c.value = key then
      if 0 < rest.length then
        match childAt rest 0 with
        | Except.error e => Except.error e
        | Except.ok v =>
          if v.kind = k then Except.ok (some v) else findKeyedValueE rest key k
      else findKeyedValueE rest key k
    else findKeyedValueE rest key k

/-- `getNodeValue` in the panic-aware model. -/
def getNodeValueE (node : Node) (key : String) (valueKind : Kind) :
    Except String (Node × Bool) :=
  match findKeyedValueE node.content key valueKind with
  | Except.error e => Except.error e
  | Except.ok (some v) => Except.ok (v, true)
  | Except.ok none => Except.ok (Node.mk valueKind "" [], false)

/-- `setNodeValue(node, key, value)` on the child list: at the first scalar child
equal to `key` that has a following child, replace that following child and stop;
if the loop falls through, append a new key scalar and the value. -/
def setNodeValue : List Node → String → Node → List Node
  | [], key, v => [yamlScalar key, v]
  | [c], key, v =>
    if c.kind = Kind.scalar ∧ c.value = key then c :: [yamlScalar key, v]
    else c :: setNodeValue [] key v
  | c :: w :: t, key, v =>
    if c.kind = Kind.scalar ∧ c.value = key then c :: v :: t
    else c :: setNodeValue (w :: t) key v

/-- Position `i` of `content` holds a scalar child whose value is `key`. -/
def IsKeyAt (content : List Node) (key : String) (i : Nat) : Prop :=
  ∃ c, content[i]? = some c ∧ c.kind = Kind.scalar ∧ c.value = key

/-- Position `i` holds a scalar `key` child and position `i+1` holds a child of
kind `k` (the hit condition of the `getNodeValue` scan). -/
def KeyedAt (content : List Node) (key : String) (k : Kind) (i : Nat) : Prop :=
  ∃ c v, content[i]? = some c ∧ c.kind = Kind.scalar ∧ c.value = key ∧
    content[i + 1]? = some v ∧ v.kind = k

/-- The keys of a mapping node's alternating key/value child list (children at
even positions). -/
def mappingKeys : List Node → List String
  | [] => []
  | [k] => [k.value]
  | k :: _ :: rest => k.value :: mappingKeys rest

/-- Go `strings.Contains(s, sub)`.  For valid UTF-8 the byte-level containment
used by Go coincides with containment of codepoint sequences (UTF-8 is
self-synchronising), so it is modelled on the codepoint lists. -/
def containsSub (s sub : String) : Bool := decide (sub.data <:+: s.data)

/-- ollama `types/model.Capability`: the closed set of capability tags. -/
inductive Capability where
  | completion
  | tools
  | insert
  | vision
  | embedding
  | thinking
deriving DecidableEq

/-- ollama `api.ShowResponse`, restricted to the fields read by
`getModelParameters`.  `modelInfo` is the `ModelInfo` map as ordered key/value
pairs, carrying the value already cast `float64 → int` as in the source;
map iteration is modelled by the list order.  `parameters` is the free-text
`Parameters` blob after the line split, `strings.Fields` tokenisation and
`strconv.ParseFloat` of the second field — per-line (first field, parse result);
lines with fewer than two fields are absorbed (they never update anything).
The spec places this free-text scan out of the core's scope. -/
structure ShowInfo where
  modelInfo : List (String × Int)
  parameters : List (String × Option ℚ)
  capabilities : List Capability

/-- The five results of `getModelParameters`: context length, temperature,
top_p (both floats modelled as ℚ), capabilities, and whether the per-model
lookup returned an error. -/
structure ModelParams where
  maxContextLength : Int
  temperature : ℚ
  topP : ℚ
  capabilities : List Capability
  failed : Bool

/-- The `ModelInfo` scan of `getModelParameters`: the first key containing
`.context_length` supplies the context length; otherwise the sentinel stands. -/
def scanContextLength : List (String × Int) → Int → Int
  | [], acc => acc
  | (key, v) :: rest, acc =>
    if containsSub key ".context_length" then v else scanContextLength rest acc

/-- The `Parameters` scan of `getModelParameters`: every line whose key contains
`temperature` (resp. `top_p`) and whose value parses updates the running value;
the last successful parse wins. -/
def scanParameters : List (String × Option ℚ) → ℚ → ℚ → ℚ × ℚ
  | [], t, p => (t, p)
  | (key, v) :: rest, t, p =>
    let t1 := if containsSub key "temperature" then
        match v with
        | some f => f
        | none => t
      else t
    let p1 := if containsSub key "top_p" then
        match v with
        | some f => f
        | none => p
      else p
    scanParameters rest t1 p1

/-- `getModelParameters(model)`: starts from the `-1` sentinels; a failing
`show` lookup (modelled as `none`) returns the sentinels, no capabilities and
the error; otherwise the two scans refine the sentinels. -/
def getModelParameters (showModel : String → Option ShowInfo) (model : String) :
    ModelParams :=
  match showModel model with
  | none => ⟨-1, -1, -1, [], true⟩
  | some info =>
    let maxCtx := scanContextLength info.modelInfo (-1)
    let tp := scanParameters info.parameters (-1) (-1)
    ⟨maxCtx, tp.1, tp.2, info.capabilities, false⟩

/-- Round to the nearest integer, ties to even (the rounding of
`strconv.FormatFloat`). -/
def roundHalfEven (q : ℚ) : Int :=
  let f := ⌊q⌋
  let r := q - f
  if r < 1 / 2 then f
  else if r > 1 / 2 then f + 1
  else if f % 2 = 0 then f else f + 1

/-- `strconv.FormatFloat(f, 'f', 1, 64)` at the rational level: one digit after
the decimal point, rounding to nearest.  The source only applies it to values
already tested `> 0`. -/
def formatFloat1 (q : ℚ) : String :=
  let n := roundHalfEven (q * 10)
  toString (n / 10) ++ "." ++ toString (n % 10)

/-- The child list of the node built for a newly added model (the `newNode`
block of `process`): the `name` pair always, then one key/value pair per
meaningful enrichment value (`> 0` numerics, present capability tags). -/
def newModelContent (model : String) (p : ModelParams) : List Node :=
  [yamlScalar "name", yamlScalar model]
    ++ (if p.maxContextLength > 0 then
          [yamlScalar "max_input_tokens", yamlScalar (toString p.maxContextLength)]
        else [])
    ++ (if p.temperature > 0 then
          [yamlScalar "temperature", yamlScalar (formatFloat1 p.temperature)]
        else [])
    ++ (if p.topP > 0 then
          [yamlScalar "top_p", yamlScalar (formatFloat1 p.topP)]
        else [])
    ++ (if p.capabilities.contains Capability.vision then
          [yamlScalar "supports_vision", yamlScalar "true"]
        else [])
    ++ (if p.capabilities.contains Capability.tools then
          [yamlScalar "supports_function_calling", yamlScalar "true"]
        else [])
    ++ (if p.capabilities.contains Capability.thinking then
          [yamlScalar "supports_reasoning", yamlScalar "true"]
        else [])
    ++ (if p.capabilities.contains Capability.embedding then
          [yamlScalar "type", yamlScalar "embedding"]
        else [])

/-- The mapping node appended for a newly added model. -/
def newModelNode (model : String) (p : ModelParams) : Node :=
  Node.mk Kind.mapping "" (newModelContent model p)

/-- Accumulator loop for the comma split: collect the current piece (reversed)
until a comma, emit it, continue. -/
def splitCommaAux : List Char → List Char → List String
  | [], acc => [String.mk acc.reverse]
  | c :: rest, acc =>
    if c = ',' then String.mk acc.reverse :: splitCommaAux rest []
    else splitCommaAux rest (c :: acc)

/-- Go `strings.Split(s, ",")`: the pieces of `s` between commas, empty pieces
included (`""` yields `[""]`). -/
def splitComma (s : String) : List String := splitCommaAux s.data []

/-- The exclusion step of `process`: when the `--exclude` option is nonempty,
split it on commas and drop every model containing any of the pieces.  (The
`lo.ForEach` trim in the source assigns to a loop-local copy and is a no-op.) -/
def filterExcludedModels (optExclude : String) (models : List String) :
    List String :=
  if optExclude = "" then models
  else
    let excludeModels := splitComma optExclude
    models.filter fun model =>
      !(excludeModels.any fun excludeModel => containsSub model excludeModel)

/-- The obsolete-model removal of `process`: keep exactly the existing entries
whose `name` lookup succeeds and whose name is in the (filtered) model list. -/
def pruneModels (models : List Node) (ollamaModels : List String) : List Node :=
  models.filter fun cfgModel =>
    match getNodeValue cfgModel "name" Kind.scalar with
    | (cfgModelName, true) => ollamaModels.contains cfgModelName.value
    | (_, false) => false

/-- The `found` scan of the new-model loop: some entry's `name` lookup succeeds
with this model name. -/
def modelFound (models : List Node) (model : String) : Bool :=
  models.any fun cfgModel =>
    match getNodeValue cfgModel "name" Kind.scalar with
    | (cfgModelName, true) => cfgModelName.value == model
    | (_, false) => false

/-- The new-model loop of `process`: for each listed model not found among the
accumulated entries, enrich it and append the new node; a failed enrichment is
not propagated (the source discards the wrapped error), so the sentinels stand
and the loop continues. -/
def addModels (showModel : String → Option ShowInfo) :
    List String → List Node → List Node
  | [], models => models
  | model :: rest, models =>
    if modelFound models model then addModels showModel rest models
    else addModels showModel rest
      (models ++ [newModelNode model (getModelParameters showModel model)])

/-- The sort key of the final `sort.Slice`: the `name` value of the entry, the
empty string when the lookup fails (the default node's value). -/
def sortName (m : Node) : String := (getNodeValue m "name" Kind.scalar).1.value

/-- The comparison `less(a, b)` of the final `sort.Slice`. -/
def modelNameLt (a b : Node) : Bool := decide (sortName a < sortName b)

/-- The final sort of the models sequence.  `sort.Slice` is a comparison sort
specified only up to the ordering it establishes; it is modelled by a merge
sort over the non-strict counterpart of `less`. -/
def sortModels (models : List Node) : List Node :=
  models.mergeSort fun a b => !(modelNameLt b a)

/-- The model-reconciliation core of `process`: exclusion filter on the listed
names, prune of the existing entries, addition of the missing models, sort. -/
def reconcileModels (showModel : String → Option ShowInfo) (optExclude : String)
    (listedModels : List String) (existingModels : List Node) : List Node :=
  let ollamaModels := filterExcludedModels optExclude listedModels
  sortModels (addModels showModel ollamaModels
    (pruneModels existingModels ollamaModels))

/-- The inner loop of the client search with Go indexing semantics: at every
scalar child equal to `name`, the source reads `cn.Content[j+1]` without a
bounds check; the access at offset `j+1` is `childAt rest 0` and panics
(`Except.error`) when no such child exists.  A match does not break the loop.
Returns whether this client node matched the target name. -/
def scanClientNameE (clientName : String) : List Node → Except String Bool
  | [] => Except.ok false
  | c :: rest =>
    if c.kind = Kind.scalar ∧ c.value = "name" then
      match childAt rest 0 with
      | Except.error e => Except.error e
      | Except.ok v =>
        if v.kind = Kind.scalar ∧ v.value = clientName then
          match scanClientNameE clientName rest with
          | Except.error e => Except.error e
          | Except.ok _ => Except.ok true
        else scanClientNameE clientName rest
    else scanClientNameE clientName rest

/-- The client search of `process` over the `clients` children: scans every
client node in turn (no break); reports whether some client matched, or the
panic raised while scanning. -/
def findClientE (clientName : String) : List Node → Except String Bool
  | [] => Except.ok false
  | cn :: rest =>
    match scanClientNameE clientName cn.content with
    | Except.error e => Except.error e
    | Except.ok b =>
      match findClientE clientName rest with
      | Except.error e => Except.error e
      | Except.ok b2 => Except.ok (b || b2)

/-- The client-search outcome at the `process` level: a panic propagates; when
no client matches, the run fails with the `client not found` error; otherwise
it proceeds. -/
def locateClientE (clientName : String) (clients : List Node) :
    Except String Bool :=
  match findClientE clientName clients with
  | Except.error e => Except.error e
  | Except.ok true => Except.ok true
  | Except.ok false =>
    Except.error ("ollama client name (" ++ clientName ++ ") not found")

/-- The desired-model scan of the default-model fixup: the first entry whose
`name` lookup succeeds and whose name contains `optDefModel` supplies
`desiredModel`; otherwise it stays empty. -/
def findDesiredModel (models : List Node) (optDefModel : String) : String :=
  match models with
  | [] => ""
  | cfgModel :: rest =>
    match getNodeValue cfgModel "name" Kind.scalar with
    | (cfgModelName, true) =>
      if containsSub cfgModelName.value optDefModel then cfgModelName.value
      else findDesiredModel rest optDefModel
    | (_, false) => findDesiredModel rest optDefModel

/-- Split a character list at its first colon. -/
def splitFirstColon : List Char → Option (List Char × List Char)
  | [] => none
  | c :: rest =>
    if c = ':' then some ([], rest)
    else
      match splitFirstColon rest with
      | some (a, b) => some (c :: a, b)
      | none => none

/-- The regexp match on the top-level `model` scalar: the anchored pattern with
groups `one or more non-colons`, a colon, `one or more arbitrary characters`
succeeds exactly when the string splits at its first colon into a nonempty
colon-free prefix and a nonempty remainder; both submatches are trimmed. -/
def parseDefModel (s : String) : Option (String × String) :=
  match splitFirstColon s.data with
  | some (a, b) =>
    if a ≠ [] ∧ b ≠ [] then some ((String.mk a).trim, (String.mk b).trim)
    else none
  | none => none

/-- `cfgDefModelNode` as located during parsing: the top-level `model` scalar,
kept only when the regexp match succeeded; `none` models the nil pointer. -/
def defModelNodeOf (root : Node) : Option Node :=
  match getNodeValue root "model" Kind.scalar with
  | (node, true) =>
    match parseDefModel node.value with
    | some _ => some node
    | none => none
  | (_, false) => none

/-- The default-model fixup of `process` with Go nil semantics: when an
override is supplied and a model matches it by substring, the source writes
through `cfgDefModelNode` unconditionally; a nil node is a panic
(`Except.error`).  Returns the possibly rewritten node otherwise. -/
def defModelFixupE (optClientName optDefModel : String)
    (defModelNode : Option Node) (models : List Node) :
    Except String (Option Node) :=
  if optDefModel = "" then Except.ok defModelNode
  else
    let desiredModel := findDesiredModel models optDefModel
    if desiredModel ≠ "" then
      match defModelNode with
      | some node =>
        Except.ok (some (Node.mk node.kind (optClientName ++ ":" ++ desiredModel)
          node.content))
      | none =>
        Except.error
          "runtime error: invalid memory address or nil pointer dereference"
    else Except.ok defModelNode

/-! ## Lemmas about the tree accessors -/

/-- The panic-aware scan always succeeds and agrees with the total scan. -/
theorem findKeyedValueE_eq (content : List Node) (key : String) (k : Kind) :
    findKeyedValueE content key k = Except.ok (findKeyedValue content key k) := by
  induction content with
  | nil => rfl
  | cons c rest ih =>
    cases rest with
    | nil => simp [findKeyedValue, findKeyedValueE, childAt]
    | cons w t =>
      simp only [findKeyedValue, findKeyedValueE]
      by_cases h : c.kind = Kind.scalar ∧ c.value = key
      · rw [if_pos h, if_pos h, if_pos (show 0 < (w :: t).length by simp)]
        simp only [childAt, List.getElem?_cons_zero]
        by_cases hw : w.kind = k
        · rw [if_pos hw, if_pos hw]
        · rw [if_neg hw, if_neg hw]; exact ih
      · rw [if_neg h, if_neg h]; exact ih

/-- A successful scan exhibits a key child followed by a value child of the
expected kind, and returns that value child. -/
theorem findKeyedValue_some {content : List Node} {key : String} {k : Kind}
    {v : Node} (h : findKeyedValue content key k = some v) :
    ∃ i c, content[i]? = some c ∧ c.kind = Kind.scalar ∧ c.value = key ∧
      content[i + 1]? = some v ∧ v.kind = k := by
  induction content with
  | nil => simp [findKeyedValue] at h
  | cons c rest ih =>
    cases rest with
    | nil => simp [findKeyedValue] at h
    | cons w t =>
      simp only [findKeyedValue] at h
      by_cases hc : c.kind = Kind.scalar ∧ c.value = key
      · rw [if_pos hc] at h
        by_cases hw : w.kind = k
        · rw [if_pos hw] at h
          refine ⟨0, c, by simp, hc.1, hc.2, ?_, ?_⟩
          · simpa using congrArg some (Option.some.inj h)
          · rw [← Option.some.inj h]; exact hw
        · rw [if_neg hw] at h
          obtain ⟨i, c1, h1, h2, h3, h4, h5⟩ := ih h
          exact ⟨i + 1, c1, by simpa using h1, h2, h3, by simpa using h4, h5⟩
      · rw [if_neg hc] at h
        obtain ⟨i, c1, h1, h2, h3, h4, h5⟩ := ih h
        exact ⟨i + 1, c1, by simpa using h1, h2, h3, by simpa using h4, h5⟩

/-- A failed scan means no position satisfies the hit condition. -/
theorem findKeyedValue_none {content : List Node} {key : String} {k : Kind}
    (h : findKeyedValue content key k = none) :
    ∀ i, ¬ KeyedAt content key k i := by
  induction content with
  | nil => intro i ⟨c, v, hc, _⟩; simp at hc
  | cons c rest ih =>
    cases rest with
    | nil =>
      intro i ⟨c1, v1, h1, h2, h3, h4, h5⟩
      cases i with
      | zero => simp at h4
      | succ j => simp at h1
    | cons w t =>
      simp only [findKeyedValue] at h
      by_cases hc : c.kind = Kind.scalar ∧ c.value = key
      · rw [if_pos hc] at h
        by_cases hw : w.kind = k
        · rw [if_pos hw] at h; exact absurd h (by simp)
        · rw [if_neg hw] at h
          intro i hi
          cases i with
          | zero =>
            obtain ⟨c1, v1, h1, h2, h3, h4, h5⟩ := hi
            simp only [List.getElem?_cons_succ, List.getElem?_cons_zero,
              Option.some.injEq] at h1 h4
            exact hw (by rw [h4]; exact h5)
          | succ j =>
            obtain ⟨c1, v1, h1, h2, h3, h4, h5⟩ := hi
            exact ih h j ⟨c1, v1, by simpa using h1, h2, h3, by simpa using h4, h5⟩
      · rw [if_neg hc] at h
        intro i hi
        cases i with
        | zero =>
          obtain ⟨c1, v1, h1, h2, h3, h4, h5⟩ := hi
          simp only [List.getElem?_cons_zero, Option.some.injEq] at h1
          exact hc ⟨h1 ▸ h2, h1 ▸ h3⟩
        | succ j =>
          obtain ⟨c1, v1, h1, h2, h3, h4, h5⟩ := hi
          exact ih h j ⟨c1, v1, by simpa using h1, h2, h3, by simpa using h4, h5⟩

/-- A scan over a list starting with a matching key/value pair hits it. -/
theorem findKeyedValue_cons_hit {c w : Node} {key : String} {k : Kind}
    (rest : List Node) (h1 : c.kind = Kind.scalar) (h2 : c.value = key)
    (h3 : w.kind = k) :
    findKeyedValue (c :: w :: rest) key k = some w := by
  simp [findKeyedValue, h1, h2, h3]

/-- The `name` lookup on a freshly built model node returns the model name. -/
theorem getNodeValue_newModelNode (model : String) (p : ModelParams) :
    getNodeValue (newModelNode model p) "name" Kind.scalar =
      (yamlScalar model, true) := by
  simp [getNodeValue, newModelNode, newModelContent, Node.content, findKeyedValue,
    yamlScalar, Node.kind, Node.value]

/-- Shifting the hit condition past a head child. -/
theorem isKeyAt_cons_succ (c : Node) (l : List Node) (key : String) (j : Nat) :
    IsKeyAt (c :: l) key (j + 1) ↔ IsKeyAt l key j := by
  simp [IsKeyAt]

/-- The hit condition at the head child. -/
theorem isKeyAt_zero (c : Node) (l : List Node) (key : String) :
    IsKeyAt (c :: l) key 0 ↔ c.kind = Kind.scalar ∧ c.value = key := by
  simp [IsKeyAt]

/-- Claim C8: `getNodeValue` never panics — its panic-aware model always
returns `ok` and agrees with the total function — and it returns a value
with `true` only when some scalar child equal to the key is immediately
followed by a child of the expected kind (the returned value); when no
position satisfies that condition it reports not-found with a fresh empty
node of the requested kind, in particular on malformed mappings with an odd
child count or a trailing unpaired key. -/
theorem claim_C8_getNodeValue_safety (node : Node) (key : String) (k : Kind) :
    getNodeValueE node key k = Except.ok (getNodeValue node key k) ∧
    ((getNodeValue node key k).2 = true →
      ∃ i c, node.content[i]? = some c ∧ c.kind = Kind.scalar ∧ c.value = key ∧
        node.content[i + 1]? = some (getNodeValue node key k).1 ∧
        (getNodeValue node key k).1.kind = k) ∧
    ((∀ i, ¬ KeyedAt node.content key k i) →
      getNodeValue node key k = (Node.mk k "" [], false)) := by
  refine ⟨?_, ?_, ?_⟩
  · cases h : findKeyedValue node.content key k with
    | none => simp [getNodeValueE, getNodeValue, findKeyedValueE_eq, h]
    | some v => simp [getNodeValueE, getNodeValue, findKeyedValueE_eq, h]
  · intro htrue
    cases h : findKeyedValue node.content key k with
    | none => rw [getNodeValue, h] at htrue; simp at htrue
    | some v =>
      have hv : getNodeValue node key k = (v, true) := by rw [getNodeValue, h]
      rw [hv]
      exact findKeyedValue_some h
  · intro hnone
    cases h : findKeyedValue node.content key k with
    | none => rw [getNodeValue, h]
    | some v =>
      obtain ⟨i, c, h1, h2, h3, h4, h5⟩ := findKeyedValue_some h
      exact absurd ⟨c, v, h1, h2, h3, h4, h5⟩ (hnone i)

/-- Witness for C8: a hit on a well-formed mapping, and not-found on the
malformed mapping whose trailing `name` scalar has no paired value. -/
theorem claim_C8_witness :
    (∃ i c,
      (Node.mk Kind.mapping "" [yamlScalar "name", yamlScalar "llama2"]).content[i]? =
          some c ∧
        c.kind = Kind.scalar ∧ c.value = "name" ∧
        (Node.mk Kind.mapping "" [yamlScalar "name", yamlScalar "llama2"]).content[i + 1]? =
          some (getNodeValue (Node.mk Kind.mapping ""
            [yamlScalar "name", yamlScalar "llama2"]) "name" Kind.scalar).1 ∧
        (getNodeValue (Node.mk Kind.mapping ""
          [yamlScalar "name", yamlScalar "llama2"]) "name" Kind.scalar).1.kind =
          Kind.scalar) ∧
    getNodeValue (Node.mk Kind.mapping "" [yamlScalar "foo", yamlScalar "name"])
      "name" Kind.scalar = (Node.mk Kind.scalar "" [], false) := by
  constructor
  · exact (claim_C8_getNodeValue_safety _ "name" Kind.scalar).2.1 rfl
  · apply (claim_C8_getNodeValue_safety _ "name" Kind.scalar).2.2
    intro i hi
    obtain ⟨c, v, h1, h2, h3, h4, h5⟩ := hi
    cases i with
    | zero =>
      simp only [Node.content, List.getElem?_cons_zero, Option.some.injEq] at h1
      rw [← h1] at h3
      exact absurd h3 (by decide)
    | succ j =>
      cases j with
      | zero => simp [Node.content] at h4
      | succ j2 => simp [Node.content] at h1

/-- Claim C9: `setNodeValue` on a mapping's child list: when a scalar child
equal to the key exists and (as the first such occurrence) has a paired value,
exactly that paired value position is overwritten — the result is the original
list with only position `i+1` replaced; when the key does not occur at all, a
fresh key scalar and the value are appended and all existing children are kept
unchanged. -/
theorem claim_C9_setNodeValue_frame (content : List Node) (key : String)
    (v : Node) :
    (∀ i, i + 1 < content.length → IsKeyAt content key i →
      (∀ j, j < i → ¬ IsKeyAt content key j) →
      setNodeValue content key v = content.set (i + 1) v) ∧
    ((∀ i, ¬ IsKeyAt content key i) →
      setNodeValue content key v = content ++ [yamlScalar key, v]) := by
  constructor
  · induction content with
    | nil => intro i hlt; simp at hlt
    | cons c rest ih =>
      intro i hlt hkey hmin
      cases i with
      | zero =>
        obtain ⟨c1, h1, h2, h3⟩ := hkey
        simp only [List.getElem?_cons_zero, Option.some.injEq] at h1
        have hc : c.kind = Kind.scalar ∧ c.value = key := by
          rw [h1]; exact ⟨h2, h3⟩
        cases rest with
        | nil => simp at hlt
        | cons w t => simp [setNodeValue, if_pos hc]
      | succ i1 =>
        have hc : ¬ (c.kind = Kind.scalar ∧ c.value = key) := by
          intro hcc
          exact hmin 0 (Nat.succ_pos _) ((isKeyAt_zero c rest key).2 hcc)
        cases rest with
        | nil => simp at hlt
        | cons w t =>
          have hrec := ih i1 (by simpa using hlt)
            ((isKeyAt_cons_succ c (w :: t) key i1).1 hkey)
            (fun j hj => fun hk =>
              hmin (j + 1) (by omega) ((isKeyAt_cons_succ c (w :: t) key j).2 hk))
          simp only [setNodeValue, if_neg hc]
          rw [hrec]
          simp [List.set_cons_succ]
  · induction content with
    | nil => intro _; simp [setNodeValue]
    | cons c rest ih =>
      intro hnone
      have hc : ¬ (c.kind = Kind.scalar ∧ c.value = key) := by
        intro hcc
        exact hnone 0 ((isKeyAt_zero c rest key).2 hcc)
      have hrest : ∀ i, ¬ IsKeyAt rest key i := by
        intro i hk
        exact hnone (i + 1) ((isKeyAt_cons_succ c rest key i).2 hk)
      cases rest with
      | nil => simp [setNodeValue, if_neg hc]
      | cons w t =>
        simp only [setNodeValue, if_neg hc]
        rw [ih hrest]
        simp

/-- Witness for C9: an in-place replacement on an existing key, and an append
on a list without the key. -/
theorem claim_C9_witness :
    setNodeValue [yamlScalar "k", yamlScalar "old"] "k" (yamlScalar "new") =
      ([yamlScalar "k", yamlScalar "old"].set 1 (yamlScalar "new")) ∧
    setNodeValue [] "k" (yamlScalar "new") =
      [] ++ [yamlScalar "k", yamlScalar "new"] := by
  constructor
  · exact (claim_C9_setNodeValue_frame [yamlScalar "k", yamlScalar "old"] "k"
      (yamlScalar "new")).1 0 (by simp)
      ⟨yamlScalar "k", by simp, rfl, rfl⟩
      (fun j hj => absurd hj (Nat.not_lt_zero j))
  · exact (claim_C9_setNodeValue_frame [] "k" (yamlScalar "new")).2
      (fun i => fun hk => by obtain ⟨c, h1, _⟩ := hk; simp at h1)

/-! ## Lemmas about the reconciler -/

/-- Sorting does not change membership. -/
theorem mem_sortModels {a : Node} {l : List Node} : a ∈ sortModels l ↔ a ∈ l :=
  (List.mergeSort_perm l _).mem_iff

/-- The add loop only appends: the accumulated entries persist as a sublist. -/
theorem sublist_addModels (showModel : String → Option ShowInfo)
    (l : List String) (models : List Node) :
    models.Sublist (addModels showModel l models) := by
  induction l generalizing models with
  | nil => simp [addModels]
  | cons m rest ih =>
    simp only [addModels]
    by_cases h : modelFound models m
    · rw [if_pos h]; exact ih models
    · rw [if_neg h]
      exact List.Sublist.trans (List.sublist_append_left models _) (ih _)

/-- Membership in the accumulated entries persists through the add loop. -/
theorem mem_addModels_of_mem {a : Node}
    (showModel : String → Option ShowInfo) {l : List String}
    {models : List Node} (h : a ∈ models) :
    a ∈ addModels showModel l models :=
  (sublist_addModels showModel l models).subset h

/-- Everything in the add loop's output is an original entry or a freshly
built node for some listed model. -/
theorem mem_addModels {a : Node} {showModel : String → Option ShowInfo}
    {l : List String} {models : List Node}
    (h : a ∈ addModels showModel l models) :
    a ∈ models ∨ ∃ m ∈ l, a = newModelNode m (getModelParameters showModel m) := by
  induction l generalizing models with
  | nil => exact Or.inl (by simpa [addModels] using h)
  | cons m rest ih =>
    simp only [addModels] at h
    by_cases hf : modelFound models m
    · rw [if_pos hf] at h
      rcases ih h with h1 | ⟨m1, hm1, he⟩
      · exact Or.inl h1
      · exact Or.inr ⟨m1, List.mem_cons_of_mem _ hm1, he⟩
    · rw [if_neg hf] at h
      rcases ih h with h1 | ⟨m1, hm1, he⟩
      · rcases List.mem_append.1 h1 with h2 | h2
        · exact Or.inl h2
        · exact Or.inr ⟨m, List.mem_cons_self _ _, by simpa using h2⟩
      · exact Or.inr ⟨m1, List.mem_cons_of_mem _ hm1, he⟩

/-- `modelFound` in terms of entries: some entry has a successful `name`
lookup with this value. -/
theorem modelFound_eq_true {models : List Node} {n : String} :
    modelFound models n = true ↔
      ∃ e ∈ models, ∃ nm, getNodeValue e "name" Kind.scalar = (nm, true) ∧
        nm.value = n := by
  simp only [modelFound, List.any_eq_true]
  constructor
  · rintro ⟨e, he, hp⟩
    rcases hg : getNodeValue e "name" Kind.scalar with ⟨nm, b⟩
    rw [hg] at hp
    cases b with
    | false => simp at hp
    | true => exact ⟨e, he, nm, hg, beq_iff_eq.1 hp⟩
  · rintro ⟨e, he, nm, hg, hv⟩
    refine ⟨e, he, ?_⟩
    rw [hg]
    exact beq_iff_eq.2 hv

/-- `modelFound` distributes over appending entry lists. -/
theorem modelFound_append (l1 l2 : List Node) (n : String) :
    modelFound (l1 ++ l2) n = (modelFound l1 n || modelFound l2 n) := by
  simp [modelFound, List.any_append]

/-- A found model stays found through the add loop. -/
theorem modelFound_addModels_mono {showModel : String → Option ShowInfo}
    {l : List String} {models : List Node} {n : String}
    (h : modelFound models n = true) :
    modelFound (addModels showModel l models) n = true := by
  rw [modelFound_eq_true] at h ⊢
  obtain ⟨e, he, r⟩ := h
  exact ⟨e, mem_addModels_of_mem showModel he, r⟩

/-- The freshly built node is found under its own model name. -/
theorem modelFound_singleton_newModelNode (m : String) (p : ModelParams) :
    modelFound [newModelNode m p] m = true := by
  rw [modelFound_eq_true]
  exact ⟨newModelNode m p, by simp, yamlScalar m, getNodeValue_newModelNode m p, rfl⟩

/-- A listed model that is not yet found gets its freshly built node into the
add loop's output. -/
theorem newModelNode_mem_addModels {showModel : String → Option ShowInfo}
    {l : List String} {n : String} {models : List Node}
    (hmem : n ∈ l) (hnot : modelFound models n = false) :
    newModelNode n (getModelParameters showModel n) ∈
      addModels showModel l models := by
  induction l generalizing models with
  | nil => simp at hmem
  | cons m rest ih =>
    by_cases hmn : m = n
    · subst hmn
      simp only [addModels]
      rw [if_neg (by simp [hnot])]
      exact mem_addModels_of_mem showModel (by simp)
    · have hmem2 : n ∈ rest := by
        rcases List.mem_cons.1 hmem with h | h
        · exact absurd h.symm hmn
        · exact h
      simp only [addModels]
      by_cases hf : modelFound models m
      · rw [if_pos hf]; exact ih hmem2 hnot
      · rw [if_neg hf]
        refine ih hmem2 ?_
        rw [modelFound_append, hnot, Bool.false_or, Bool.eq_false_iff]
        intro ht
        obtain ⟨e, he, nm, hg, hv⟩ := modelFound_eq_true.1 ht
        rw [List.mem_singleton] at he
        subst he
        rw [getNodeValue_newModelNode] at hg
        have hnm : yamlScalar m = nm := congrArg Prod.fst hg
        rw [← hnm] at hv
        exact hmn hv

/-- After the add loop, every listed model is found. -/
theorem modelFound_addModels_of_mem {showModel : String → Option ShowInfo}
    {l : List String} {models : List Node} {m : String} (h : m ∈ l) :
    modelFound (addModels showModel l models) m = true := by
  induction l generalizing models with
  | nil => simp at h
  | cons m1 rest ih =>
    simp only [addModels]
    by_cases hf : modelFound models m1
    · rw [if_pos hf]
      rcases List.mem_cons.1 h with rfl | h2
      · exact modelFound_addModels_mono hf
      · exact ih h2
    · rw [if_neg hf]
      rcases List.mem_cons.1 h with rfl | h2
      · apply modelFound_addModels_mono
        rw [modelFound_append, modelFound_singleton_newModelNode]
        simp
      · exact ih h2

/-- When every listed model is already found, the add loop is the identity. -/
theorem addModels_eq_of_all_found {showModel : String → Option ShowInfo}
    {l : List String} {models : List Node}
    (h : ∀ m ∈ l, modelFound models m = true) :
    addModels showModel l models = models := by
  induction l with
  | nil => rfl
  | cons m rest ih =>
    simp only [addModels]
    rw [if_pos (h m (by simp))]
    exact ih (fun m1 hm1 => h m1 (by simp [hm1]))

/-- Sorting does not change which model names are found. -/
theorem modelFound_sortModels (l : List Node) (n : String) :
    modelFound (sortModels l) n = modelFound l n := by
  cases h : modelFound l n with
  | true =>
    rw [modelFound_eq_true] at h ⊢
    obtain ⟨e, he, r⟩ := h
    exact ⟨e, mem_sortModels.2 he, r⟩
  | false =>
    rw [Bool.eq_false_iff] at h ⊢
    intro ht
    obtain ⟨e, he, r⟩ := modelFound_eq_true.1 ht
    exact h (modelFound_eq_true.2 ⟨e, mem_sortModels.1 he, r⟩)

/-- The merge-sort comparison holds exactly when the sort keys are ordered. -/
theorem sortLe_iff (a b : Node) :
    (!(modelNameLt b a)) = true ↔ sortName a ≤ sortName b := by
  rw [Bool.not_eq_true', modelNameLt, decide_eq_false_iff_not, not_lt]

/-- The sorted output is pairwise ordered by sort key. -/
theorem sorted_sortModels (l : List Node) :
    (sortModels l).Pairwise (fun a b => sortName a ≤ sortName b) := by
  have htrans : ∀ a b c : Node, (!(modelNameLt b a)) = true →
      (!(modelNameLt c b)) = true → (!(modelNameLt c a)) = true := by
    intro a b c hab hbc
    rw [sortLe_iff] at hab hbc ⊢
    exact le_trans hab hbc
  have htotal : ∀ a b : Node, ((!(modelNameLt b a)) || (!(modelNameLt a b))) = true := by
    intro a b
    rw [Bool.or_eq_true, sortLe_iff, sortLe_iff]
    exact le_total _ _
  rw [sortModels]
  exact (List.sorted_mergeSort htrans htotal l).imp (fun hab => (sortLe_iff _ _).1 hab)

/-- Sorting a list that is already pairwise ordered is the identity. -/
theorem sortModels_eq_of_sorted {l : List Node}
    (h : l.Pairwise (fun a b => sortName a ≤ sortName b)) : sortModels l = l := by
  rw [sortModels]
  exact List.mergeSort_of_sorted (List.Pairwise.imp (fun hab => (sortLe_iff _ _).2 hab) h)

/-- Every entry of the reconciled output has a successful `name` lookup whose
value is in the filtered model list. -/
theorem name_mem_of_mem_reconcile {showModel : String → Option ShowInfo}
    {optExclude : String} {listedModels : List String}
    {existingModels : List Node} {e : Node}
    (h : e ∈ reconcileModels showModel optExclude listedModels existingModels) :
    ∃ nm, getNodeValue e "name" Kind.scalar = (nm, true) ∧
      nm.value ∈ filterExcludedModels optExclude listedModels := by
  simp only [reconcileModels] at h
  rw [mem_sortModels] at h
  rcases mem_addModels h with h1 | ⟨m, hm, rfl⟩
  · rw [pruneModels, List.mem_filter] at h1
    obtain ⟨hmem, hpred⟩ := h1
    rcases hg : getNodeValue e "name" Kind.scalar with ⟨nm, b⟩
    rw [hg] at hpred
    cases b with
    | false => simp at hpred
    | true => exact ⟨nm, rfl, List.elem_iff.1 hpred⟩
  · exact ⟨yamlScalar m, getNodeValue_newModelNode m _, hm⟩

/-- A filtered model name that is not the name of any existing entry gets its
freshly built node into the reconciled output. -/
theorem newModelNode_mem_reconcile {showModel : String → Option ShowInfo}
    {optExclude : String} {listedModels : List String}
    {existingModels : List Node} {n : String}
    (hmem : n ∈ filterExcludedModels optExclude listedModels)
    (hnot : ∀ e ∈ existingModels, ∀ nm,
      getNodeValue e "name" Kind.scalar = (nm, true) → nm.value ≠ n) :
    newModelNode n (getModelParameters showModel n) ∈
      reconcileModels showModel optExclude listedModels existingModels := by
  simp only [reconcileModels]
  rw [mem_sortModels]
  apply newModelNode_mem_addModels hmem
  rw [Bool.eq_false_iff]
  intro ht
  obtain ⟨e, he, nm, hg, hv⟩ := modelFound_eq_true.1 ht
  rw [pruneModels] at he
  exact hnot e ((List.filter_sublist _).subset he) nm hg hv

/-- On a failed lookup all sentinels stand, so the freshly built node is
name-only. -/
theorem newModelNode_of_show_failure {showModel : String → Option ShowInfo}
    {n : String} (hshow : showModel n = none) :
    newModelNode n (getModelParameters showModel n) =
      Node.mk Kind.mapping "" [yamlScalar "name", yamlScalar n] := by
  have hp : getModelParameters showModel n = ⟨-1, -1, -1, [], true⟩ := by
    rw [getModelParameters, hshow]
  rw [hp, newModelNode, newModelContent]
  have hz : ¬((-1 : Int) > 0) := by norm_num
  have hq : ¬((-1 : ℚ) > 0) := by norm_num
  simp [hz, hq]

/-- After reconciliation every filtered model name is found. -/
theorem modelFound_reconcile_of_mem {showModel : String → Option ShowInfo}
    {optExclude : String} {listedModels : List String}
    {existingModels : List Node} {m : String}
    (hm : m ∈ filterExcludedModels optExclude listedModels) :
    modelFound (reconcileModels showModel optExclude listedModels
      existingModels) m = true := by
  simp only [reconcileModels]
  rw [modelFound_sortModels]
  exact modelFound_addModels_of_mem hm

/-! ## Claims about the reconciler -/

/-- Claim C1: an existing model entry with a `name` scalar is present in the
reconciled output exactly when that name is in the authoritative model list
after exclusion filtering; all other existing entries are dropped. -/
theorem claim_C1_pruning (showModel : String → Option ShowInfo)
    (optExclude : String) (listedModels : List String)
    (existingModels : List Node) (e nm : Node) (he : e ∈ existingModels)
    (hn : getNodeValue e "name" Kind.scalar = (nm, true)) :
    e ∈ reconcileModels showModel optExclude listedModels existingModels ↔
      nm.value ∈ filterExcludedModels optExclude listedModels := by
  constructor
  · intro hmem
    obtain ⟨nm2, hg2, hmem2⟩ := name_mem_of_mem_reconcile hmem
    rw [hn] at hg2
    have hnm : nm = nm2 := congrArg Prod.fst hg2
    rw [hnm]
    exact hmem2
  · intro hmem
    simp only [reconcileModels]
    rw [mem_sortModels]
    apply mem_addModels_of_mem
    rw [pruneModels, List.mem_filter]
    refine ⟨he, ?_⟩
    rw [hn]
    exact List.elem_iff.2 hmem

/-- Witness for C1: an entry named `llama2` survives reconciliation against
the authoritative list containing `llama2`. -/
theorem claim_C1_witness :
    Node.mk Kind.mapping "" [yamlScalar "name", yamlScalar "llama2"] ∈
      reconcileModels (fun _ => none) "" ["llama2"]
        [Node.mk Kind.mapping "" [yamlScalar "name", yamlScalar "llama2"]] := by
  have h := claim_C1_pruning (fun _ => none) "" ["llama2"]
    [Node.mk Kind.mapping "" [yamlScalar "name", yamlScalar "llama2"]]
    (Node.mk Kind.mapping "" [yamlScalar "name", yamlScalar "llama2"])
    (yamlScalar "llama2") (by simp)
    (by simp [getNodeValue, findKeyedValue, yamlScalar, Node.kind, Node.value,
      Node.content])
  exact h.2 (by simp [filterExcludedModels, yamlScalar, Node.value])

/-- Claim C4: the reconciled output is sorted ascending by the entries' name
scalars — every pair of adjacent entries is ordered by name. -/
theorem claim_C4_ordering (showModel : String → Option ShowInfo)
    (optExclude : String) (listedModels : List String)
    (existingModels : List Node) :
    (reconcileModels showModel optExclude listedModels existingModels).Chain'
      (fun a b => sortName a ≤ sortName b) := by
  simp only [reconcileModels]
  exact (sorted_sortModels _).chain'

/-- Claim C5: a model name containing any substring of the comma-split
exclusion option never appears as an entry name in the reconciled output,
whether retained or added. -/
theorem claim_C5_exclusion (showModel : String → Option ShowInfo)
    (optExclude s m : String) (listedModels : List String)
    (existingModels : List Node) (hne : optExclude ≠ "")
    (hs : s ∈ splitComma optExclude) (hsub : containsSub m s = true) :
    modelFound (reconcileModels showModel optExclude listedModels
      existingModels) m = false := by
  rw [Bool.eq_false_iff]
  intro ht
  obtain ⟨e, he, nm, hg, hv⟩ := modelFound_eq_true.1 ht
  obtain ⟨nm2, hg2, hmem⟩ := name_mem_of_mem_reconcile he
  rw [hg] at hg2
  have hnm : nm = nm2 := congrArg Prod.fst hg2
  rw [← hnm, hv] at hmem
  rw [filterExcludedModels, if_neg hne] at hmem
  rw [List.mem_filter] at hmem
  obtain ⟨_, hpred⟩ := hmem
  rw [Bool.not_eq_true', List.any_eq_false] at hpred
  exact hpred s hs hsub

/-- Witness for C5: with exclusion option `mistral`, the model `mistral-7b`
from the authoritative list is absent from the output. -/
theorem claim_C5_witness :
    modelFound (reconcileModels (fun _ => none) "mistral"
      ["llama2", "mistral-7b"] []) "mistral-7b" = false := by
  exact claim_C5_exclusion (fun _ => none) "mistral" "mistral" "mistral-7b"
    ["llama2", "mistral-7b"] [] (by decide) (by decide) (by decide)

/-! ## The fields of a freshly built model entry -/

/-- `mappingKeys` takes the head of each leading key/value pair. -/
theorem mappingKeys_cons_cons (a b : Node) (rest : List Node) :
    mappingKeys (a :: b :: rest) = a.value :: mappingKeys rest := rfl

/-- `mappingKeys` over a conditional key/value block followed by a rest. -/
theorem mappingKeys_ifpair_append (c : Prop) [Decidable c] (a b : Node)
    (rest : List Node) :
    mappingKeys ((if c then [a, b] else []) ++ rest) =
      (if c then [a.value] else []) ++ mappingKeys rest := by
  by_cases h : c
  · rw [if_pos h, if_pos h]; rfl
  · rw [if_neg h, if_neg h]; rfl

/-- `mappingKeys` over a final conditional key/value block. -/
theorem mappingKeys_ifpair (c : Prop) [Decidable c] (a b : Node) :
    mappingKeys (if c then [a, b] else []) = if c then [a.value] else [] := by
  by_cases h : c
  · rw [if_pos h, if_pos h]; rfl
  · rw [if_neg h, if_neg h]; rfl

/-- The keys of a freshly built model entry: `name`, then one key per
meaningful enrichment value. -/
theorem mappingKeys_newModelContent (model : String) (p : ModelParams) :
    mappingKeys (newModelContent model p) =
      "name" :: ((if p.maxContextLength > 0 then ["max_input_tokens"] else []) ++
        ((if p.temperature > 0 then ["temperature"] else []) ++
        ((if p.topP > 0 then ["top_p"] else []) ++
        ((if p.capabilities.contains Capability.vision then ["supports_vision"]
          else []) ++
        ((if p.capabilities.contains Capability.tools then
            ["supports_function_calling"] else []) ++
        ((if p.capabilities.contains Capability.thinking then
            ["supports_reasoning"] else []) ++
        (if p.capabilities.contains Capability.embedding then ["type"]
          else []))))))) := by
  simp only [newModelContent, List.append_assoc, List.cons_append, List.nil_append]
  rw [mappingKeys_cons_cons, mappingKeys_ifpair_append, mappingKeys_ifpair_append,
    mappingKeys_ifpair_append, mappingKeys_ifpair_append, mappingKeys_ifpair_append,
    mappingKeys_ifpair_append, mappingKeys_ifpair]
  simp [yamlScalar, Node.value]

/-- Membership in a conditional singleton. -/
theorem mem_ite_singleton {x s : String} {c : Prop} [Decidable c] :
    (x ∈ if c then [s] else []) ↔ c ∧ x = s := by
  by_cases h : c <;> simp [h]

/-- The key set of a freshly built model entry, characterised. -/
theorem mem_mappingKeys_newModelContent (model : String) (p : ModelParams)
    (x : String) :
    x ∈ mappingKeys (newModelContent model p) ↔
      (x = "name" ∨
       (p.maxContextLength > 0 ∧ x = "max_input_tokens") ∨
       (p.temperature > 0 ∧ x = "temperature") ∨
       (p.topP > 0 ∧ x = "top_p") ∨
       (p.capabilities.contains Capability.vision = true ∧ x = "supports_vision") ∨
       (p.capabilities.contains Capability.tools = true ∧
         x = "supports_function_calling") ∨
       (p.capabilities.contains Capability.thinking = true ∧
         x = "supports_reasoning") ∨
       (p.capabilities.contains Capability.embedding = true ∧ x = "type")) := by
  rw [mappingKeys_newModelContent]
  simp only [List.mem_cons, List.mem_append, mem_ite_singleton]

/-- Claim C2: a filtered authoritative name that is not the name of any
existing entry gets a fresh entry appended: the entry is in the reconciled
output, its `name` lookup yields the model name, and it carries each of
`max_input_tokens` / `temperature` / `top_p` exactly when the corresponding
enrichment value is strictly positive (so the `-1` sentinels are never
written), and each capability-derived key exactly when the capability tag
is present. -/
theorem claim_C2_addition (showModel : String → Option ShowInfo)
    (optExclude : String) (listedModels : List String)
    (existingModels : List Node) (n : String)
    (hmem : n ∈ filterExcludedModels optExclude listedModels)
    (hnot : ∀ e ∈ existingModels, ∀ nm,
      getNodeValue e "name" Kind.scalar = (nm, true) → nm.value ≠ n) :
    newModelNode n (getModelParameters showModel n) ∈
      reconcileModels showModel optExclude listedModels existingModels ∧
    getNodeValue (newModelNode n (getModelParameters showModel n)) "name"
      Kind.scalar = (yamlScalar n, true) ∧
    ("max_input_tokens" ∈
        mappingKeys (newModelNode n (getModelParameters showModel n)).content ↔
      (getModelParameters showModel n).maxContextLength > 0) ∧
    ("temperature" ∈
        mappingKeys (newModelNode n (getModelParameters showModel n)).content ↔
      (getModelParameters showModel n).temperature > 0) ∧
    ("top_p" ∈
        mappingKeys (newModelNode n (getModelParameters showModel n)).content ↔
      (getModelParameters showModel n).topP > 0) ∧
    ("supports_vision" ∈
        mappingKeys (newModelNode n (getModelParameters showModel n)).content ↔
      Capability.vision ∈ (getModelParameters showModel n).capabilities) ∧
    ("supports_function_calling" ∈
        mappingKeys (newModelNode n (getModelParameters showModel n)).content ↔
      Capability.tools ∈ (getModelParameters showModel n).capabilities) ∧
    ("supports_reasoning" ∈
        mappingKeys (newModelNode n (getModelParameters showModel n)).content ↔
      Capability.thinking ∈ (getModelParameters showModel n).capabilities) ∧
    ("type" ∈
        mappingKeys (newModelNode n (getModelParameters showModel n)).content ↔
      Capability.embedding ∈ (getModelParameters showModel n).capabilities) := by
  have hkeys : ∀ x : String,
      x ∈ mappingKeys (newModelNode n (getModelParameters showModel n)).content ↔
        (x = "name" ∨
         ((getModelParameters showModel n).maxContextLength > 0 ∧
           x = "max_input_tokens") ∨
         ((getModelParameters showModel n).temperature > 0 ∧ x = "temperature") ∨
         ((getModelParameters showModel n).topP > 0 ∧ x = "top_p") ∨
         ((getModelParameters showModel n).capabilities.contains Capability.vision =
             true ∧ x = "supports_vision") ∨
         ((getModelParameters showModel n).capabilities.contains Capability.tools =
             true ∧ x = "supports_function_calling") ∨
         ((getModelParameters showModel n).capabilities.contains
             Capability.thinking = true ∧ x = "supports_reasoning") ∨
         ((getModelParameters showModel n).capabilities.contains
             Capability.embedding = true ∧ x = "type")) := by
    intro x
    have hc : (newModelNode n (getModelParameters showModel n)).content =
        newModelContent n (getModelParameters showModel n) := rfl
    rw [hc]
    exact mem_mappingKeys_newModelContent n (getModelParameters showModel n) x
  refine ⟨newModelNode_mem_reconcile hmem hnot, getNodeValue_newModelNode n _,
    ?_, ?_, ?_, ?_, ?_, ?_, ?_⟩
  · rw [hkeys]
    simp [List.elem_iff, show ("max_input_tokens" : String) ≠ "name" by decide,
      show ("max_input_tokens" : String) ≠ "temperature" by decide,
      show ("max_input_tokens" : String) ≠ "top_p" by decide,
      show ("max_input_tokens" : String) ≠ "supports_vision" by decide,
      show ("max_input_tokens" : String) ≠ "supports_function_calling" by decide,
      show ("max_input_tokens" : String) ≠ "supports_reasoning" by decide,
      show ("max_input_tokens" : String) ≠ "type" by decide]
  · rw [hkeys]
    simp [List.elem_iff, show ("temperature" : String) ≠ "name" by decide,
      show ("temperature" : String) ≠ "max_input_tokens" by decide,
      show ("temperature" : String) ≠ "top_p" by decide,
      show ("temperature" : String) ≠ "supports_vision" by decide,
      show ("temperature" : String) ≠ "supports_function_calling" by decide,
      show ("temperature" : String) ≠ "supports_reasoning" by decide,
      show ("temperature" : String) ≠ "type" by decide]
  · rw [hkeys]
    simp [List.elem_iff, show ("top_p" : String) ≠ "name" by decide,
      show ("top_p" : String) ≠ "max_input_tokens" by decide,
      show ("top_p" : String) ≠ "temperature" by decide,
      show ("top_p" : String) ≠ "supports_vision" by decide,
      show ("top_p" : String) ≠ "supports_function_calling" by decide,
      show ("top_p" : String) ≠ "supports_reasoning" by decide,
      show ("top_p" : String) ≠ "type" by decide]
  · rw [hkeys]
    simp [List.elem_iff, show ("supports_vision" : String) ≠ "name" by decide,
      show ("supports_vision" : String) ≠ "max_input_tokens" by decide,
      show ("supports_vision" : String) ≠ "temperature" by decide,
      show ("supports_vision" : String) ≠ "top_p" by decide,
      show ("supports_vision" : String) ≠ "supports_function_calling" by decide,
      show ("supports_vision" : String) ≠ "supports_reasoning" by decide,
      show ("supports_vision" : String) ≠ "type" by decide]
  · rw [hkeys]
    simp [List.elem_iff,
      show ("supports_function_calling" : String) ≠ "name" by decide,
      show ("supports_function_calling" : String) ≠ "max_input_tokens" by decide,
      show ("supports_function_calling" : String) ≠ "temperature" by decide,
      show ("supports_function_calling" : String) ≠ "top_p" by decide,
      show ("supports_function_calling" : String) ≠ "supports_vision" by decide,
      show ("supports_function_calling" : String) ≠ "supports_reasoning" by decide,
      show ("supports_function_calling" : String) ≠ "type" by decide]
  · rw [hkeys]
    simp [List.elem_iff, show ("supports_reasoning" : String) ≠ "name" by decide,
      show ("supports_reasoning" : String) ≠ "max_input_tokens" by decide,
      show ("supports_reasoning" : String) ≠ "temperature" by decide,
      show ("supports_reasoning" : String) ≠ "top_p" by decide,
      show ("supports_reasoning" : String) ≠ "supports_vision" by decide,
      show ("supports_reasoning" : String) ≠ "supports_function_calling" by decide,
      show ("supports_reasoning" : String) ≠ "type" by decide]
  · rw [hkeys]
    simp [List.elem_iff, show ("type" : String) ≠ "name" by decide,
      show ("type" : String) ≠ "max_input_tokens" by decide,
      show ("type" : String) ≠ "temperature" by decide,
      show ("type" : String) ≠ "top_p" by decide,
      show ("type" : String) ≠ "supports_vision" by decide,
      show ("type" : String) ≠ "supports_function_calling" by decide,
      show ("type" : String) ≠ "supports_reasoning" by decide]

/-- Witness for C2: enriching `mistral` with context length 8192, unknown
temperature/top_p and the vision capability adds the expected entry. -/
theorem claim_C2_witness :
    newModelNode "mistral"
        (getModelParameters
          (fun _ => some ⟨[(".context_length", 8192)], [], [Capability.vision]⟩)
          "mistral") ∈
      reconcileModels
        (fun _ => some ⟨[(".context_length", 8192)], [], [Capability.vision]⟩)
        "" ["mistral"] [] ∧
    ("max_input_tokens" ∈
        mappingKeys (newModelNode "mistral"
          (getModelParameters
            (fun _ => some ⟨[(".context_length", 8192)], [], [Capability.vision]⟩)
            "mistral")).content ↔
      (getModelParameters
        (fun _ => some ⟨[(".context_length", 8192)], [], [Capability.vision]⟩)
        "mistral").maxContextLength > 0) ∧
    ("temperature" ∈
        mappingKeys (newModelNode "mistral"
          (getModelParameters
            (fun _ => some ⟨[(".context_length", 8192)], [], [Capability.vision]⟩)
            "mistral")).content ↔
      (getModelParameters
        (fun _ => some ⟨[(".context_length", 8192)], [], [Capability.vision]⟩)
        "mistral").temperature > 0) := by
  have h := claim_C2_addition
    (fun _ => some ⟨[(".context_length", 8192)], [], [Capability.vision]⟩)
    "" ["mistral"] [] "mistral" (by simp [filterExcludedModels])
    (fun e he => absurd he (List.not_mem_nil e))
  exact ⟨h.1, h.2.2.1, h.2.2.2.1⟩

/-- Claim C3: reconciling a second time with the same authoritative list,
exclusion option and enrichment results returns the first run's output
unchanged — nothing added, nothing removed, no reordering. -/
theorem claim_C3_idempotence (showModel : String → Option ShowInfo)
    (optExclude : String) (listedModels : List String)
    (existingModels : List Node) :
    reconcileModels showModel optExclude listedModels
        (reconcileModels showModel optExclude listedModels existingModels) =
      reconcileModels showModel optExclude listedModels existingModels := by
  have key : ∀ out : List Node,
      (∀ a ∈ out, ∃ nm, getNodeValue a "name" Kind.scalar = (nm, true) ∧
        nm.value ∈ filterExcludedModels optExclude listedModels) →
      (∀ m ∈ filterExcludedModels optExclude listedModels,
        modelFound out m = true) →
      out.Pairwise (fun a b => sortName a ≤ sortName b) →
      reconcileModels showModel optExclude listedModels out = out := by
    intro out h1 h2 h3
    show sortModels (addModels showModel
      (filterExcludedModels optExclude listedModels)
      (pruneModels out (filterExcludedModels optExclude listedModels))) = out
    have hA : pruneModels out (filterExcludedModels optExclude listedModels) =
        out := by
      rw [pruneModels, List.filter_eq_self]
      intro a ha
      obtain ⟨nm, hg, hmem⟩ := h1 a ha
      rw [hg]
      exact List.elem_iff.2 hmem
    rw [hA, addModels_eq_of_all_found h2, sortModels_eq_of_sorted h3]
  apply key
  · exact fun a ha => name_mem_of_mem_reconcile ha
  · intro m hm
    simp only [reconcileModels]
    rw [modelFound_sortModels]
    exact modelFound_addModels_of_mem hm
  · simp only [reconcileModels]
    exact sorted_sortModels _

/-- Claim C6: a failing per-model inventory lookup does not abort the run —
the model is still appended as a name-only entry (all sentinels stand, so no
enrichment fields are written) and every other filtered model is still
reconciled into the output. -/
theorem claim_C6_enrich_failure (showModel : String → Option ShowInfo)
    (optExclude : String) (listedModels : List String)
    (existingModels : List Node) (n : String) (hshow : showModel n = none)
    (hmem : n ∈ filterExcludedModels optExclude listedModels)
    (hnot : ∀ e ∈ existingModels, ∀ nm,
      getNodeValue e "name" Kind.scalar = (nm, true) → nm.value ≠ n) :
    Node.mk Kind.mapping "" [yamlScalar "name", yamlScalar n] ∈
      reconcileModels showModel optExclude listedModels existingModels ∧
    ∀ m ∈ filterExcludedModels optExclude listedModels,
      modelFound (reconcileModels showModel optExclude listedModels
        existingModels) m = true := by
  constructor
  · rw [← newModelNode_of_show_failure hshow]
    exact newModelNode_mem_reconcile hmem hnot
  · intro m hm
    exact modelFound_reconcile_of_mem hm

/-- Witness for C6: the lookup for `m1` fails, yet a name-only `m1` entry is
in the output and `m1` is found there. -/
theorem claim_C6_witness :
    Node.mk Kind.mapping "" [yamlScalar "name", yamlScalar "m1"] ∈
      reconcileModels (fun _ => none) "" ["m1"] [] ∧
    modelFound (reconcileModels (fun _ => none) "" ["m1"] []) "m1" = true := by
  have h := claim_C6_enrich_failure (fun _ => none) "" ["m1"] [] "m1" rfl
    (by simp [filterExcludedModels]) (fun e he => absurd he (List.not_mem_nil e))
  exact ⟨h.1, h.2 "m1" (by simp [filterExcludedModels])⟩

/-! ## Client lookup and default-model fixup -/

/-- Claim C7, code-bug evidence: the document whose only client is the
mapping `(foo, name)` has no entry named `ollama` — the claim demands a
clean `client not found` failure — yet the client search panics: the scan
hits the scalar `name` in value position as the last child and the source
reads `cn.Content[j+1]` without a bounds check. -/
theorem claim_C7_client_not_found :
    modelFound [Node.mk Kind.mapping "" [yamlScalar "foo", yamlScalar "name"]]
      "ollama" = false ∧
    locateClientE "ollama"
      [Node.mk Kind.mapping "" [yamlScalar "foo", yamlScalar "name"]] =
      Except.error "runtime error: index out of range" :=
  ⟨rfl, rfl⟩

/-- When some reconciled entry's name contains the override, the
desired-model scan returns a nonempty name. -/
theorem findDesiredModel_ne_empty {models : List Node} {q : String}
    (hq : q ≠ "")
    (h : ∃ e ∈ models, ∃ nm, getNodeValue e "name" Kind.scalar = (nm, true) ∧
      containsSub nm.value q = true) :
    findDesiredModel models q ≠ "" := by
  induction models with
  | nil =>
    obtain ⟨e, he, _⟩ := h
    simp at he
  | cons c rest ih =>
    obtain ⟨e, he, nm, hg, hc⟩ := h
    rw [findDesiredModel]
    rcases hgc : getNodeValue c "name" Kind.scalar with ⟨nmc, bc⟩
    cases bc with
    | false =>
      rcases List.mem_cons.1 he with rfl | he2
      · exact absurd (congrArg Prod.snd (hg.symm.trans hgc)) (by simp)
      · exact ih ⟨e, he2, nm, hg, hc⟩
    | true =>
      show (if containsSub nmc.value q = true then nmc.value
        else findDesiredModel rest q) ≠ ""
      by_cases hcc : containsSub nmc.value q = true
      · rw [if_pos hcc]
        intro hemp
        rw [hemp, containsSub] at hcc
        have hinf : q.data <:+: ("" : String).data := of_decide_eq_true hcc
        exact hq (String.ext (List.eq_nil_of_infix_nil hinf))
      · rw [if_neg hcc]
        rcases List.mem_cons.1 he with rfl | he2
        · have hnm : nm = nmc := congrArg Prod.fst (hg.symm.trans hgc)
          rw [hnm] at hc
          exact absurd hc hcc
        · exact ih ⟨e, he2, nm, hg, hc⟩

/-- Claim C10: when a default-model override is supplied, no default-model
node was located during parsing (no top-level `model` scalar of the form
`client:model`), and some entry of the reconciled output matches the
override by substring, the fixup dereferences the nil node — the modelled
run panics instead of failing gracefully. -/
theorem claim_C10_defmodel_nil_panic (showModel : String → Option ShowInfo)
    (optExclude optClientName optDefModel : String)
    (listedModels : List String) (existingModels : List Node) (root : Node)
    (hdm : optDefModel ≠ "") (hroot : defModelNodeOf root = none)
    (hmatch : ∃ e ∈ reconcileModels showModel optExclude listedModels
        existingModels,
      ∃ nm, getNodeValue e "name" Kind.scalar = (nm, true) ∧
        containsSub nm.value optDefModel = true) :
    defModelFixupE optClientName optDefModel (defModelNodeOf root)
        (reconcileModels showModel optExclude listedModels existingModels) =
      Except.error
        "runtime error: invalid memory address or nil pointer dereference" := by
  rw [hroot, defModelFixupE, if_neg hdm]
  rw [if_pos (findDesiredModel_ne_empty hdm hmatch)]

/-- Witness for C10: override `m1`, a document without a top-level `model`
scalar, and a reconciled output containing an entry named `m1`. -/
theorem claim_C10_witness :
    defModelFixupE "ollama" "m1" (defModelNodeOf (Node.mk Kind.mapping "" []))
        (reconcileModels (fun _ => none) "" ["m1"] []) =
      Except.error
        "runtime error: invalid memory address or nil pointer dereference" := by
  have hout : Node.mk Kind.mapping "" [yamlScalar "name", yamlScalar "m1"] ∈
      reconcileModels (fun _ => none) "" ["m1"] [] := by
    have hsf : (fun _ : String => (none : Option ShowInfo)) "m1" = none := rfl
    rw [← @newModelNode_of_show_failure (fun _ => none) "m1" hsf]
    exact newModelNode_mem_reconcile (by simp [filterExcludedModels])
      (fun e he => absurd he (List.not_mem_nil e))
  exact claim_C10_defmodel_nil_panic (fun _ => none) "" "ollama" "m1" ["m1"] []
    (Node.mk Kind.mapping "" []) (by decide) rfl
    ⟨Node.mk Kind.mapping "" [yamlScalar "name", yamlScalar "m1"], hout,
      yamlScalar "m1", rfl, by decide⟩

end AichatConf
